import Mathlib

/-!
Verification of the TOTP module `public/js/totp.js` (RFC 6238 client-side
one-time-password generation: Base32 codec, HMAC-SHA1 dynamic truncation,
provisioning URIs).

Shallow embedding conventions:
* JavaScript byte values (`Uint8Array` entries) are `Nat` with the bound
  `< 256` carried as a hypothesis or enforced by `% 256`.
* The intermediate bit strings that `bytesToBase32` / `base32ToBytes` build
  out of the characters `'0'`/`'1'` are modelled as `List Bool` (one entry
  per bit, most significant bit first); `byte.toString(2).padStart(8,'0')`
  becomes `natToBits 8 byte` and `parseInt(bits, 2)` becomes `bitsToNat`.
* `crypto.getRandomValues` is modelled by an explicit entropy function
  `Nat → Nat` (byte index to byte value, reduced `% 256` as the typed array
  guarantees); `Date.now()` by an explicit `nowMs : Nat` argument.
* Web Crypto `HMAC/SHA-1` is embedded concretely (`sha1`, `hmacSha1`,
  RFC 3174 / RFC 2104) so that the RFC 6238 test vectors are computable.
* A thrown JavaScript exception is `Option.none`.
* JavaScript's `toUpperCase` (Unicode Default Case Conversion, a
  platform primitive) is abstracted as an uppercasing parameter in
  `base32ToBytesWith`; the concrete `base32ToBytes` instantiates it with
  the characterwise ASCII mapping `upperChar`, which agrees with the
  platform on ASCII strings — in particular on every Base32 alphabet
  string. `\s` is modelled by the explicit list of characters the
  ECMAScript `\s` class matches.
-/

set_option maxRecDepth 8000

namespace TOTP

/-- One 32-bit wraparound, `x % 2^32`. -/
def w32 (n : Nat) : Nat := n % 4294967296

/-- Rotate a 32-bit word left by `k` bits. -/
def rotl (k n : Nat) : Nat := w32 (n <<< k) ||| (n >>> (32 - k))

/-- The `w`-bit binary representation of `n`, most significant bit first:
`byte.toString(2).padStart(w, '0')` with bits as booleans. -/
def natToBits : Nat → Nat → List Bool
  | 0, _ => []
  | w + 1, n => natToBits w (n / 2) ++ [n % 2 == 1]

/-- Model of `parseInt(bits, 2)`: the value of a most-significant-first bit string. -/
def bitsToNat (bs : List Bool) : Nat :=
  bs.foldl (fun acc b => 2 * acc + (if b then 1 else 0)) 0

/-- Consecutive `k`-sized slices of a list (`fuel` bounds the recursion;
callers pass the list length, which suffices for `k ≥ 1`). This is the
`for (i = 0; i < s.length; i += k) s.slice(i, i+k)` loop. -/
def chunksAux (k : Nat) : Nat → List α → List (List α)
  | 0, _ => []
  | _, [] => []
  | fuel + 1, l => l.take k :: chunksAux k fuel (l.drop k)

/-- Consecutive `k`-sized slices of `l`. -/
def chunks (k : Nat) (l : List α) : List (List α) := chunksAux k l.length l

/-- The RFC 4648 Base32 alphabet used by the codec. -/
def base32Alphabet : List Char := "ABCDEFGHIJKLMNOPQRSTUVWXYZ234567".toList

/-- Characterwise ASCII uppercase mapping (a-z to A-Z, everything else
unchanged). This agrees with JavaScript `toUpperCase` on ASCII strings;
the full Unicode conversion additionally maps some non-ASCII characters
into the ASCII range ('ß' to "SS", 'ı' to 'I', 'ſ' to 'S', the
fi-ligatures), which `base32ToBytesWith` accounts for by taking the
uppercasing as a parameter. -/
def upperChar (c : Char) : Char :=
  if 97 ≤ c.toNat ∧ c.toNat ≤ 122 then Char.ofNat (c.toNat - 32) else c

/-- The characters matched by the ECMAScript regular-expression class `\s`
(stripped by `replace(/\s/g, '')` in the decoder). -/
def jsWhitespace : List Char :=
  ['\t', '\n', '\x0b', '\x0c', '\r', ' ', '\u00A0', '\u1680',
   '\u2000', '\u2001', '\u2002', '\u2003', '\u2004', '\u2005', '\u2006',
   '\u2007', '\u2008', '\u2009', '\u200A', '\u2028', '\u2029', '\u202F',
   '\u205F', '\u3000', '\uFEFF']

/-- Whether `replace(/\s/g, '')` removes the character. -/
def isWhitespaceJS (c : Char) : Bool := jsWhitespace.contains c

/-- Model of `alphabet.indexOf(char)` (`none` for JavaScript's `-1`). -/
def indexOfChar (c : Char) : List Char → Nat → Option Nat
  | [], _ => none
  | a :: rest, i => if a = c then some i else indexOfChar c rest (i + 1)

/-- Embedding of `TOTP.bytesToBase32`: bytes to bit string, right-pad with `0` bits to a
multiple of 5, map each 5-bit group through the alphabet. -/
def bytesToBase32 (bytes : List Nat) : String :=
  let bits := (bytes.map (natToBits 8)).flatten
  let padded := bits ++ List.replicate ((5 - bits.length % 5) % 5) false
  String.mk ((chunks 5 padded).map (fun chunk => base32Alphabet.getD (bitsToNat chunk) 'A'))

/-- The bits one character of the cleaned-up decoder input contributes:
its 5-bit alphabet index, or nothing when `indexOf` returns `-1`. -/
def base32CharBits (c : Char) : List Bool :=
  match indexOfChar c base32Alphabet 0 with
  | some i => natToBits 5 i
  | none => []

/-- The decoder's output loop: as long as at least 8 bits remain, emit the
value of the next 8-bit slice (`floor(bits.length / 8)` bytes in total). -/
def bitsToBytesAux : Nat → List Bool → List Nat
  | 0, _ => []
  | fuel + 1, bits =>
    if 8 ≤ bits.length then bitsToNat (bits.take 8) :: bitsToBytesAux fuel (bits.drop 8)
    else []

/-- Embedding of `TOTP.base32ToBytes`: uppercase, strip whitespace, collect the 5-bit
indices of recognized characters, slice the bit string into bytes. -/
def base32ToBytes (s : String) : List Nat :=
  let bits := (((s.toList.map upperChar).filter
      (fun c => !(isWhitespaceJS c))).map base32CharBits).flatten
  bitsToBytesAux bits.length bits

/-! SHA-1 (RFC 3174) and HMAC (RFC 2104): the `crypto.subtle` primitives
`importKey`/`sign('HMAC', …)` used by `generateCode`, embedded concretely
over byte lists so the RFC 6238 vectors are computable facts. -/

/-- Big-endian bytes of a 32-bit word. -/
def be32 (n : Nat) : List Nat :=
  [n / 16777216 % 256, n / 65536 % 256, n / 256 % 256, n % 256]

/-- Big-endian bytes of a 64-bit word. -/
def be64 (n : Nat) : List Nat :=
  [n / 72057594037927936 % 256, n / 281474976710656 % 256,
   n / 1099511627776 % 256, n / 4294967296 % 256,
   n / 16777216 % 256, n / 65536 % 256, n / 256 % 256, n % 256]

/-- Group bytes into big-endian 32-bit words. -/
def bytesToWords : List Nat → List Nat
  | b0 :: b1 :: b2 :: b3 :: rest =>
    (b0 * 16777216 + b1 * 65536 + b2 * 256 + b3) :: bytesToWords rest
  | _ => []

/-- SHA-1 message padding: `0x80`, zeros, then the bit length as 8
big-endian bytes, to a multiple of 64 bytes. -/
def sha1Pad (msg : List Nat) : List Nat :=
  msg ++ [128] ++ List.replicate ((64 - (msg.length + 9) % 64) % 64) 0
      ++ be64 (8 * msg.length)

/-- SHA-1 round function `f_t`. -/
def sha1F (i b c d : Nat) : Nat :=
  if i < 20 then (b &&& c) ||| ((4294967295 ^^^ b) &&& d)
  else if i < 40 then b ^^^ c ^^^ d
  else if i < 60 then (b &&& c) ||| (b &&& d) ||| (c &&& d)
  else b ^^^ c ^^^ d

/-- SHA-1 round constant `K_t`. -/
def sha1K (i : Nat) : Nat :=
  if i < 20 then 1518500249
  else if i < 40 then 1859775393
  else if i < 60 then 2400959708
  else 3395469782

/-- Message-schedule extension, on the reversed word list (newest first):
`w[t] = rotl1 (w[t-3] ^ w[t-8] ^ w[t-14] ^ w[t-16])`. -/
def sha1ExtendRev : Nat → List Nat → List Nat
  | 0, rws => rws
  | fuel + 1, rws =>
    sha1ExtendRev fuel
      (rotl 1 ((rws.getD 2 0) ^^^ (rws.getD 7 0) ^^^ (rws.getD 13 0) ^^^ (rws.getD 15 0)) :: rws)

/-- The 80-word message schedule of one block. -/
def sha1Schedule (ws16 : List Nat) : List Nat :=
  (sha1ExtendRev 64 ws16.reverse).reverse

/-- One SHA-1 round on the state `(a, b, c, d, e)` with indexed word `(t, w)`. -/
def sha1Round (st : Nat × Nat × Nat × Nat × Nat) (iw : Nat × Nat) :
    Nat × Nat × Nat × Nat × Nat :=
  let (a, b, c, d, e) := st
  (w32 (rotl 5 a + sha1F iw.1 b c d + e + sha1K iw.1 + iw.2), a, rotl 30 b, c, d)

/-- Compress one 64-byte block into the chaining state. -/
def sha1Compress (h : Nat × Nat × Nat × Nat × Nat) (block : List Nat) :
    Nat × Nat × Nat × Nat × Nat :=
  let (a, b, c, d, e) := (sha1Schedule (bytesToWords block)).enum.foldl sha1Round h
  (w32 (h.1 + a), w32 (h.2.1 + b), w32 (h.2.2.1 + c), w32 (h.2.2.2.1 + d), w32 (h.2.2.2.2 + e))

/-- SHA-1 of a byte sequence: a 20-byte digest. -/
def sha1 (msg : List Nat) : List Nat :=
  let padded := sha1Pad msg
  let h := (chunks 64 padded).foldl sha1Compress
    (1732584193, 4023233417, 2562383102, 271733878, 3285377520)
  be32 h.1 ++ be32 h.2.1 ++ be32 h.2.2.1 ++ be32 h.2.2.2.1 ++ be32 h.2.2.2.2

/-- HMAC-SHA1 (RFC 2104), as implemented by Web Crypto for a raw key:
hash keys longer than the 64-byte block, zero-pad to 64 bytes, then
`H((key ^ opad) ‖ H((key ^ ipad) ‖ msg))`. -/
def hmacSha1 (key msg : List Nat) : List Nat :=
  let key1 := if 64 < key.length then sha1 key else key
  let key0 := key1 ++ List.replicate (64 - key1.length) 0
  sha1 ((key0.map (fun b => b ^^^ 92)) ++ sha1 ((key0.map (fun b => b ^^^ 54)) ++ msg))

/-- The 8-byte counter buffer: `new DataView(new ArrayBuffer(8))` is all
zeros; `setUint32(4, counter, false)` stores the counter's low 32 bits
big-endian at offset 4. -/
def counterBytes (counter : Nat) : List Nat :=
  [0, 0, 0, 0] ++ be32 (counter % 4294967296)

/-- RFC 4226 dynamic truncation of the HMAC digest. -/
def dynamicTruncate (hmac : List Nat) : Nat :=
  let offset := hmac.getD (hmac.length - 1) 0 &&& 15
  ((hmac.getD offset 0 &&& 127) <<< 24) |||
    ((hmac.getD (offset + 1) 0 &&& 255) <<< 16) |||
    ((hmac.getD (offset + 2) 0 &&& 255) <<< 8) |||
    (hmac.getD (offset + 3) 0 &&& 255)

/-- Model of `otp.toString()` for a nonnegative integer, with structural fuel
(`fuel > n` suffices): decimal digits, most significant first. -/
def toDecAux : Nat → Nat → List Char
  | 0, _ => []
  | fuel + 1, n =>
    if n < 10 then [Char.ofNat (48 + n)]
    else toDecAux fuel (n / 10) ++ [Char.ofNat (48 + n % 10)]

/-- Decimal rendering of a natural number. -/
def natToDec (n : Nat) : List Char := toDecAux (n + 1) n

/-- Model of `String.prototype.padStart(w, c)` on a character list. -/
def padStartList (s : List Char) (w : Nat) (c : Char) : List Char :=
  List.replicate (w - s.length) c ++ s

/-- Embedding of `TOTP.generateCode`: counter from the millisecond timestamp, HMAC-SHA1
over the 8-byte counter, dynamic truncation, `% 10^digits`, zero-pad. -/
def generateCode (secret : String) (time : Nat) (period : Nat := 30)
    (digits : Nat := 6) : String :=
  let counter := time / 1000 / period
  let secretBytes := base32ToBytes secret
  let hmac := hmacSha1 secretBytes (counterBytes counter)
  let otp := dynamicTruncate hmac % 10 ^ digits
  String.mk (padStartList (natToDec otp) digits '0')

/-- Embedding of `TOTP.getRemainingSeconds`, with `Date.now()` made explicit. -/
def getRemainingSeconds (nowMs : Nat) (period : Nat := 30) : Nat :=
  period - (nowMs / 1000) % period

/-- Embedding of `TOTP.generateSecretBytes`, with the entropy source made explicit.
`new Uint8Array(length)` throws a `RangeError` (before `getRandomValues`
runs) when `length` is negative — modelled as `none`; otherwise the array
holds `length` bytes of entropy, each below 256. -/
def generateSecretBytes (length : Int) (entropy : Nat → Nat) : Option (List Nat) :=
  if length < 0 then none
  else some ((List.range length.toNat).map (fun i => entropy i % 256))

/-- Embedding of `TOTP.generateSecret`: Base32 of 20 fresh random bytes. -/
def generateSecret (entropy : Nat → Nat) : String :=
  bytesToBase32 ((generateSecretBytes 20 entropy).getD [])

/-! The provisioning facade: `encodeURIComponent`, `URLSearchParams`
serialization (WHATWG `application/x-www-form-urlencoded`), `buildURI`. -/

/-- UTF-8 bytes of a Unicode scalar value. -/
def utf8Bytes (n : Nat) : List Nat :=
  if n < 128 then [n]
  else if n < 2048 then [192 + n / 64, 128 + n % 64]
  else if n < 65536 then [224 + n / 4096, 128 + n / 64 % 64, 128 + n % 64]
  else [240 + n / 262144, 128 + n / 4096 % 64, 128 + n / 64 % 64, 128 + n % 64]

/-- Uppercase hexadecimal digit. -/
def hexDigitChar (k : Nat) : Char :=
  if k < 10 then Char.ofNat (48 + k) else Char.ofNat (55 + k)

/-- Percent-escape of one byte, three characters `%XY`. -/
def percentByte (b : Nat) : List Char :=
  ['%', hexDigitChar (b / 16), hexDigitChar (b % 16)]

/-- Characters `encodeURIComponent` leaves unescaped. -/
def uriUnreserved (c : Char) : Bool :=
  c.isAlphanum || c ∈ ['-', '_', '.', '!', '~', '*', Char.ofNat 39, '(', ')']

/-- ECMAScript `encodeURIComponent`: unreserved characters pass through,
everything else becomes percent-escaped UTF-8 bytes. -/
def encodeURIComponent (s : String) : String :=
  String.mk ((s.toList.map (fun c =>
    if uriUnreserved c then [c] else (utf8Bytes c.toNat).map percentByte |>.flatten)).flatten)

/-- Characters the `application/x-www-form-urlencoded` serializer leaves
unescaped (`URLSearchParams.toString`). -/
def formUnreserved (c : Char) : Bool :=
  c.isAlphanum || c ∈ ['*', '-', '.', '_']

/-- Form-urlencoding of one character: space becomes `+`, unreserved
characters pass through, the rest become percent-escaped UTF-8 bytes. -/
def formEncodeChar (c : Char) : List Char :=
  if c = ' ' then ['+']
  else if formUnreserved c then [c]
  else ((utf8Bytes c.toNat).map percentByte).flatten

/-- Form-urlencoding of a string. -/
def formEncode (s : String) : String :=
  String.mk ((s.toList.map formEncodeChar).flatten)

/-- Model of `URLSearchParams.toString()`: `key=value` pairs in insertion order,
joined with `&`, both sides form-urlencoded. -/
def serializeParams : List (String × String) → String
  | [] => ""
  | [kv] => formEncode kv.1 ++ "=" ++ formEncode kv.2
  | kv :: rest => formEncode kv.1 ++ "=" ++ formEncode kv.2 ++ "&" ++ serializeParams rest

/-- The argument record of `buildURI`, with the source's defaults. -/
structure URIParams where
  secret : String
  issuer : String
  account : String
  digits : Nat := 6
  period : Nat := 30
  algorithm : String := "SHA1"

/-- Embedding of `TOTP.buildURI`: label from percent-encoded issuer and account
(JavaScript truthiness: an empty issuer drops the `issuer:` part), query
from `URLSearchParams` over the five parameters in insertion order. -/
def buildURI (p : URIParams) : String :=
  let encodedIssuer := encodeURIComponent p.issuer
  let encodedAccount := encodeURIComponent p.account
  let label := if p.issuer = "" then encodedAccount
    else encodedIssuer ++ ":" ++ encodedAccount
  let params := serializeParams
    [("secret", p.secret), ("issuer", p.issuer), ("algorithm", p.algorithm),
     ("digits", String.mk (natToDec p.digits)), ("period", String.mk (natToDec p.period))]
  "otpauth://totp/" ++ label ++ "?" ++ params

/-- Decimal value of a digit string (how a reader interprets the returned
OTP code; used to state what the code denotes). -/
def decValue (cs : List Char) : Nat :=
  cs.foldl (fun acc c => 10 * acc + (c.toNat - 48)) 0

/-- The decoder's processing of the already-uppercased input (the source
after `toUpperCase()`): strip whitespace, collect the 5-bit indices of
recognized characters, slice the bit string into bytes. -/
def base32ToBytesUpper (l : List Char) : List Nat :=
  let bits := ((l.filter (fun c => !(isWhitespaceJS c))).map base32CharBits).flatten
  bitsToBytesAux bits.length bits

/-- Embedding of `TOTP.base32ToBytes` with the platform's `toUpperCase`
made an explicit parameter, like the entropy source and the clock:
JavaScript string uppercasing is Unicode Default Case Conversion, whose
full table is a platform fact; it maps, e.g., 'ß' to "SS", 'ı' to 'I' and
'ſ' to 'S'. `base32ToBytes` is this definition instantiated with the
characterwise ASCII mapping (see `base32ToBytes_eq_with_ascii`), exact
whenever the input is ASCII. -/
def base32ToBytesWith (upper : List Char → List Char) (s : String) : List Nat :=
  base32ToBytesUpper (upper s.toList)

/-- An uppercasing that agrees with JavaScript `toUpperCase` on ASCII
strings and on the string "ß": Unicode maps the one character 'ß'
(U+00DF) to the two characters "SS". -/
def upperSharpS (l : List Char) : List Char :=
  (l.map (fun c => if c = 'ß' then ['S', 'S'] else [upperChar c])).flatten

/-- The number of characters of the uppercased input that the decoder
accepts: survivors of whitespace stripping that are found in the
alphabet. -/
def acceptedCountUpper (l : List Char) : Nat :=
  ((l.filter (fun c => !(isWhitespaceJS c))).filter
    (fun c => (indexOfChar c base32Alphabet 0).isSome)).length

end TOTP

/-! Supporting lemmas: bit strings. -/

namespace TOTP

theorem natToBits_length (w : Nat) : ∀ n, (natToBits w n).length = w := by
  induction w with
  | zero => intro n; rfl
  | succ w ih => intro n; simp [natToBits, ih]

theorem bitsToNat_append_bit (bs : List Bool) (b : Bool) :
    bitsToNat (bs ++ [b]) = 2 * bitsToNat bs + (if b then 1 else 0) := by
  simp [bitsToNat, List.foldl_append]

theorem bitsToNat_natToBits (w : Nat) : ∀ n, n < 2 ^ w → bitsToNat (natToBits w n) = n := by
  induction w with
  | zero =>
    intro n h
    interval_cases n
    rfl
  | succ w ih =>
    intro n h
    have hdiv : n / 2 < 2 ^ w := by
      rw [Nat.div_lt_iff_lt_mul (by norm_num)]
      simpa [Nat.pow_succ] using h
    rw [natToBits, bitsToNat_append_bit, ih (n / 2) hdiv]
    rcases Nat.mod_two_eq_zero_or_one n with h2 | h2 <;> simp [h2] <;> omega

theorem natToBits_bitsToNat (bs : List Bool) : natToBits bs.length (bitsToNat bs) = bs := by
  induction bs using List.reverseRecOn with
  | nil => rfl
  | append_singleton xs b ih =>
    rw [bitsToNat_append_bit]
    have hlen : (xs ++ [b]).length = xs.length + 1 := by simp
    rw [hlen, natToBits]
    cases b with
    | false =>
      have h1 : (2 * bitsToNat xs + 0) / 2 = bitsToNat xs := by omega
      have h2 : (2 * bitsToNat xs + 0) % 2 = 0 := by omega
      simp [h1, h2, ih]
    | true =>
      have h1 : (2 * bitsToNat xs + 1) / 2 = bitsToNat xs := by omega
      have h2 : (2 * bitsToNat xs + 1) % 2 = 1 := by omega
      simp [h1, h2, ih]

theorem bitsToNat_lt (bs : List Bool) : bitsToNat bs < 2 ^ bs.length := by
  induction bs using List.reverseRecOn with
  | nil => simp [bitsToNat]
  | append_singleton xs b ih =>
    rw [bitsToNat_append_bit]
    have hp : (xs ++ [b]).length = xs.length + 1 := by simp
    rw [hp, Nat.pow_succ]
    cases b <;> simp <;> omega

theorem chunksAux_cons (k fuel : Nat) (a : α) (as : List α) :
    chunksAux k (fuel + 1) (a :: as) =
      (a :: as).take k :: chunksAux k fuel ((a :: as).drop k) := rfl

theorem chunksAux_flatten (k : Nat) (hk : 1 ≤ k) :
    ∀ fuel (l : List α), l.length ≤ fuel → (chunksAux k fuel l).flatten = l := by
  intro fuel
  induction fuel with
  | zero =>
    intro l h
    have : l = [] := List.length_eq_zero.mp (Nat.le_zero.mp h)
    subst this
    rfl
  | succ fuel ih =>
    intro l h
    cases l with
    | nil => rfl
    | cons a as =>
      have hd : (List.drop k (a :: as)).length ≤ fuel := by
        simp only [List.length_drop, List.length_cons]
        simp only [List.length_cons] at h
        omega
      rw [chunksAux_cons, List.flatten_cons, ih _ hd]
      exact List.take_append_drop k (a :: as)

theorem chunksAux_mem_length (k : Nat) (hk : 1 ≤ k) :
    ∀ fuel (l : List α), l.length ≤ fuel → k ∣ l.length →
      ∀ c ∈ chunksAux k fuel l, c.length = k := by
  intro fuel
  induction fuel with
  | zero =>
    intro l h _ c hc
    have : l = [] := List.length_eq_zero.mp (Nat.le_zero.mp h)
    subst this
    have e0 : chunksAux k 0 ([] : List α) = [] := rfl
    rw [e0] at hc
    simp at hc
  | succ fuel ih =>
    intro l h hdvd c hc
    cases l with
    | nil =>
      have e0 : chunksAux k (fuel + 1) ([] : List α) = [] := rfl
      rw [e0] at hc
      simp at hc
    | cons a as =>
      rw [chunksAux_cons] at hc
      rcases List.mem_cons.mp hc with rfl | hc
      · have hkl : k ≤ (a :: as).length := Nat.le_of_dvd (by simp) hdvd
        simp only [List.length_take, List.length_cons]
        simp only [List.length_cons] at hkl
        omega
      · refine ih (List.drop k (a :: as)) ?_ ?_ c hc
        · simp only [List.length_drop, List.length_cons]
          simp only [List.length_cons] at h
          omega
        · simpa [List.length_drop] using Nat.dvd_sub' hdvd (dvd_refl k)

theorem chunksAux_length_dvd (k : Nat) (hk : 1 ≤ k) :
    ∀ fuel (l : List α), l.length ≤ fuel → k ∣ l.length →
      (chunksAux k fuel l).length = l.length / k := by
  intro fuel
  induction fuel with
  | zero =>
    intro l h _
    have : l = [] := List.length_eq_zero.mp (Nat.le_zero.mp h)
    subst this
    have e0 : chunksAux k 0 ([] : List α) = [] := rfl
    rw [e0]
    simp
  | succ fuel ih =>
    intro l h hdvd
    cases l with
    | nil =>
      have e0 : chunksAux k (fuel + 1) ([] : List α) = [] := rfl
      rw [e0]
      simp
    | cons a as =>
      have hk2 : k ≤ (a :: as).length := Nat.le_of_dvd (by simp) hdvd
      have hd : (List.drop k (a :: as)).length ≤ fuel := by
        simp only [List.length_drop, List.length_cons]
        simp only [List.length_cons] at h
        omega
      have hdvd2 : k ∣ (List.drop k (a :: as)).length := by
        simpa [List.length_drop] using Nat.dvd_sub' hdvd (dvd_refl k)
      rw [chunksAux_cons, List.length_cons, ih _ hd hdvd2]
      simp only [List.length_drop]
      rw [Nat.div_eq (a :: as).length k, if_pos (And.intro (Nat.lt_of_lt_of_le Nat.zero_lt_one hk) hk2)]

theorem toList_mk (cs : List Char) : (String.mk cs).toList = cs := rfl

theorem bitsToBytesAux_succ (fuel : Nat) (bits : List Bool) :
    bitsToBytesAux (fuel + 1) bits =
      if 8 ≤ bits.length then
        bitsToNat (bits.take 8) :: bitsToBytesAux fuel (bits.drop 8)
      else [] := rfl

theorem bitsToBytesAux_length :
    ∀ (fuel : Nat) (bits : List Bool), bits.length ≤ fuel →
      (bitsToBytesAux fuel bits).length = bits.length / 8 := by
  intro fuel
  induction fuel with
  | zero =>
    intro bits h
    have : bits = [] := List.length_eq_zero.mp (Nat.le_zero.mp h)
    subst this
    rfl
  | succ fuel ih =>
    intro bits h
    rw [bitsToBytesAux_succ]
    by_cases h8 : 8 ≤ bits.length
    · rw [if_pos h8, List.length_cons,
        ih (bits.drop 8) (by simp only [List.length_drop]; omega)]
      simp only [List.length_drop]
      rw [Nat.div_eq bits.length 8, if_pos (And.intro (by norm_num) h8)]
    · rw [if_neg h8]
      have h0 : bits.length / 8 = 0 := Nat.div_eq_of_lt (by omega)
      simp [h0]

theorem bitsToBytesAux_blocks :
    ∀ (blocks : List (List Bool)) (extra : List Bool) (fuel : Nat),
      (∀ blk ∈ blocks, blk.length = 8) → extra.length < 8 →
      blocks.length ≤ fuel →
      bitsToBytesAux fuel (blocks.flatten ++ extra) = blocks.map bitsToNat := by
  intro blocks
  induction blocks with
  | nil =>
    intro extra fuel _ he _
    cases fuel with
    | zero => rfl
    | succ fuel =>
      rw [List.flatten_nil, List.nil_append, bitsToBytesAux_succ, if_neg (by omega)]
      rfl
  | cons blk rest ih =>
    intro extra fuel h8 he hf
    cases fuel with
    | zero => exact absurd hf (by simp)
    | succ fuel =>
      have hblk : blk.length = 8 := h8 blk (List.mem_cons_self blk rest)
      have hbits : (blk :: rest).flatten ++ extra = blk ++ (rest.flatten ++ extra) := by
        rw [List.flatten_cons, List.append_assoc]
      rw [hbits, bitsToBytesAux_succ,
        if_pos (by simp only [List.length_append, hblk]; omega),
        List.take_left' hblk, List.drop_left' hblk,
        ih extra fuel (fun b hb => h8 b (List.mem_cons_of_mem blk hb)) he
          (by simp only [List.length_cons] at hf; omega),
        List.map_cons]

theorem flatten_map_natToBits_length (w : Nat) (bytes : List Nat) :
    ((bytes.map (natToBits w)).flatten).length = w * bytes.length := by
  induction bytes with
  | nil => simp
  | cons b bs ih =>
    simp only [List.map_cons, List.flatten_cons, List.length_append,
      natToBits_length, ih, List.length_cons]
    ring

theorem alphabet_char_clean : ∀ v : Nat, v < 32 →
    upperChar (base32Alphabet.getD v 'A') = base32Alphabet.getD v 'A' ∧
    isWhitespaceJS (base32Alphabet.getD v 'A') = false ∧
    base32CharBits (base32Alphabet.getD v 'A') = natToBits 5 v := by
  decide

theorem decode_encoded_chunks (P : List Bool) (h5 : 5 ∣ P.length) :
    base32ToBytes (String.mk ((chunks 5 P).map
      (fun ch => base32Alphabet.getD (bitsToNat ch) 'A'))) =
    bitsToBytesAux P.length P := by
  have hchl : ∀ c ∈ chunks 5 P, c.length = 5 :=
    chunksAux_mem_length 5 (by norm_num) P.length P (le_refl _) h5
  have hflat : (chunks 5 P).flatten = P :=
    chunksAux_flatten 5 (by norm_num) P.length P (le_refl _)
  have hval : ∀ ch ∈ chunks 5 P, bitsToNat ch < 32 := by
    intro ch hch
    have h := bitsToNat_lt ch
    rw [hchl ch hch] at h
    exact h
  have hcs : (((((chunks 5 P).map (fun ch => base32Alphabet.getD (bitsToNat ch) 'A')).map
        upperChar).filter (fun c => !(isWhitespaceJS c))).map base32CharBits).flatten = P := by
    rw [List.map_map]
    have h1 : (chunks 5 P).map (upperChar ∘ fun ch => base32Alphabet.getD (bitsToNat ch) 'A') =
        (chunks 5 P).map (fun ch => base32Alphabet.getD (bitsToNat ch) 'A') := by
      apply List.map_congr_left
      intro ch hch
      simpa using (alphabet_char_clean (bitsToNat ch) (hval ch hch)).1
    rw [h1]
    have h2 : ((chunks 5 P).map (fun ch => base32Alphabet.getD (bitsToNat ch) 'A')).filter
        (fun c => !(isWhitespaceJS c)) =
        (chunks 5 P).map (fun ch => base32Alphabet.getD (bitsToNat ch) 'A') := by
      apply List.filter_eq_self.mpr
      intro c hc
      rcases List.mem_map.mp hc with ⟨ch, hch, rfl⟩
      show (!(isWhitespaceJS (base32Alphabet.getD (bitsToNat ch) 'A'))) = true
      rw [(alphabet_char_clean (bitsToNat ch) (hval ch hch)).2.1]
      rfl
    rw [h2, List.map_map]
    have h3 : (chunks 5 P).map (base32CharBits ∘ fun ch => base32Alphabet.getD (bitsToNat ch) 'A') =
        (chunks 5 P).map id := by
      apply List.map_congr_left
      intro ch hch
      have hcb := (alphabet_char_clean (bitsToNat ch) (hval ch hch)).2.2
      have hnb : natToBits 5 (bitsToNat ch) = ch := by
        rw [← hchl ch hch]
        exact natToBits_bitsToNat ch
      simp only [Function.comp_apply, hcb, hnb, id_eq]
    rw [h3, List.map_id, hflat]
  simp only [base32ToBytes, toList_mk]
  rw [hcs]

/-- C2: decoding the Base32 encoding of any byte sequence reproduces the
original bytes exactly; the padding bits added during encoding introduce no
extra trailing bytes. -/
theorem base32_roundtrip (bytes : List Nat) (hb : ∀ b ∈ bytes, b < 256) :
    base32ToBytes (bytesToBase32 bytes) = bytes := by
  have hlen : ((bytes.map (natToBits 8)).flatten).length = 8 * bytes.length :=
    flatten_map_natToBits_length 8 bytes
  have h5 : 5 ∣ ((bytes.map (natToBits 8)).flatten ++
      List.replicate ((5 - ((bytes.map (natToBits 8)).flatten).length % 5) % 5) false).length := by
    simp only [List.length_append, List.length_replicate, hlen]
    omega
  have henc : bytesToBase32 bytes = String.mk ((chunks 5 ((bytes.map (natToBits 8)).flatten ++
      List.replicate ((5 - ((bytes.map (natToBits 8)).flatten).length % 5) % 5) false)).map
      (fun ch => base32Alphabet.getD (bitsToNat ch) 'A')) := rfl
  rw [henc, decode_encoded_chunks _ h5,
    bitsToBytesAux_blocks (bytes.map (natToBits 8))
      (List.replicate ((5 - ((bytes.map (natToBits 8)).flatten).length % 5) % 5) false)
      _
      (by
        intro blk hblk
        rcases List.mem_map.mp hblk with ⟨b, _, rfl⟩
        exact natToBits_length 8 b)
      (by simp only [List.length_replicate]; omega)
      (by
        simp only [List.length_append, List.length_replicate, List.length_map, hlen]
        omega),
    List.map_map]
  have hid : bytes.map (bitsToNat ∘ natToBits 8) = bytes.map id := by
    apply List.map_congr_left
    intro b hbm
    simp only [Function.comp_apply, id_eq]
    exact bitsToNat_natToBits 8 b (lt_of_lt_of_le (hb b hbm) (by norm_num))
  rw [hid, List.map_id]

/-- Witness for C2 at the test suite's concrete input, the bytes of
"Hello". -/
theorem base32_roundtrip_witness :
    (∀ b ∈ [72, 101, 108, 108, 111], b < 256) ∧
    base32ToBytes (bytesToBase32 [72, 101, 108, 108, 111]) = [72, 101, 108, 108, 111] :=
  ⟨by decide, base32_roundtrip [72, 101, 108, 108, 111] (by decide)⟩

/-- Lemma: `Char.ofNat` below the surrogate range keeps its code point. -/
theorem toNat_ofNat_small (n : Nat) (h : n < 55296) : (Char.ofNat n).toNat = n := by
  unfold Char.ofNat
  rw [dif_pos (Or.inl h)]
  rfl

theorem upperChar_upperChar (c : Char) : upperChar (upperChar c) = upperChar c := by
  unfold upperChar
  by_cases h : 97 ≤ c.toNat ∧ c.toNat ≤ 122
  · rw [if_pos h]
    have ht : (Char.ofNat (c.toNat - 32)).toNat = c.toNat - 32 :=
      toNat_ofNat_small _ (by omega)
    rw [if_neg (by rw [ht]; omega)]
  · rw [if_neg h, if_neg h]

theorem whitespace_toNat (c : Char) (h : isWhitespaceJS c = true) :
    c.toNat < 65 ∨ 122 < c.toNat := by
  have hm : c ∈ jsWhitespace := by simpa [isWhitespaceJS] using h
  fin_cases hm <;> decide

theorem isWhitespaceJS_upperChar (c : Char) :
    isWhitespaceJS (upperChar c) = isWhitespaceJS c := by
  unfold upperChar
  by_cases h : 97 ≤ c.toNat ∧ c.toNat ≤ 122
  · rw [if_pos h]
    have ht : (Char.ofNat (c.toNat - 32)).toNat = c.toNat - 32 :=
      toNat_ofNat_small _ (by omega)
    have hc : isWhitespaceJS c = false := by
      cases hw : isWhitespaceJS c
      · rfl
      · have := whitespace_toNat c hw
        omega
    have hcu : isWhitespaceJS (Char.ofNat (c.toNat - 32)) = false := by
      cases hw : isWhitespaceJS (Char.ofNat (c.toNat - 32))
      · rfl
      · have h2 := whitespace_toNat _ hw
        rw [ht] at h2
        omega
    rw [hc, hcu]
  · rw [if_neg h]

theorem base32ToBytes_upper (s : String) :
    base32ToBytes (String.mk (s.toList.map upperChar)) = base32ToBytes s := by
  simp only [base32ToBytes, toList_mk, List.map_map]
  have h : s.toList.map (upperChar ∘ upperChar) = s.toList.map upperChar :=
    List.map_congr_left (fun c _ => upperChar_upperChar c)
  rw [h]

theorem base32ToBytes_strip (s : String) :
    base32ToBytes (String.mk (s.toList.filter (fun c => !(isWhitespaceJS c)))) =
      base32ToBytes s := by
  simp only [base32ToBytes, toList_mk]
  have hcomm : ∀ l : List Char,
      (l.map upperChar).filter (fun c => !(isWhitespaceJS c)) =
      (l.filter (fun c => !(isWhitespaceJS c))).map upperChar := by
    intro l
    rw [List.filter_map]
    congr 1
    apply List.filter_congr
    intro c _
    simp [Function.comp, isWhitespaceJS_upperChar]
  rw [hcomm, hcomm, List.filter_filter]
  have : ∀ c ∈ s.toList,
      ((fun c => !(isWhitespaceJS c)) c && (fun c => !(isWhitespaceJS c)) c) =
      (fun c => !(isWhitespaceJS c)) c := by
    intro c _
    exact Bool.and_self _
  rw [List.filter_congr this]

theorem flatten_map_base32CharBits_length (l : List Char) :
    ((l.map base32CharBits).flatten).length =
      5 * (l.filter (fun c => (indexOfChar c base32Alphabet 0).isSome)).length := by
  induction l with
  | nil => rfl
  | cons c cs ih =>
    simp only [List.map_cons, List.flatten_cons, List.length_append, ih]
    by_cases h : (indexOfChar c base32Alphabet 0).isSome
    · rcases Option.isSome_iff_exists.mp h with ⟨i, hi⟩
      rw [List.filter_cons_of_pos (by simpa using h)]
      simp only [base32CharBits, hi, natToBits_length, List.length_cons]
      ring
    · rw [List.filter_cons_of_neg (by simpa using h)]
      simp only [base32CharBits, Option.not_isSome_iff_eq_none.mp h, List.length_nil]
      omega

theorem base32ToBytes_eq_with_ascii (s : String) :
    base32ToBytesWith (fun l => l.map upperChar) s = base32ToBytes s := rfl

theorem base32ToBytesUpper_skip (c : Char) (hc : indexOfChar c base32Alphabet 0 = none)
    (l1 l2 : List Char) :
    base32ToBytesUpper (l1 ++ c :: l2) = base32ToBytesUpper (l1 ++ l2) := by
  have hbits : (((l1 ++ c :: l2).filter (fun x => !(isWhitespaceJS x))).map
        base32CharBits).flatten =
      (((l1 ++ l2).filter (fun x => !(isWhitespaceJS x))).map base32CharBits).flatten := by
    rw [List.filter_append, List.filter_append, List.filter_cons]
    by_cases hw : (!(isWhitespaceJS c)) = true
    · rw [if_pos hw]
      simp only [List.map_append, List.map_cons, List.flatten_append, List.flatten_cons]
      have hnil : base32CharBits c = [] := by simp [base32CharBits, hc]
      rw [hnil, List.nil_append]
    · rw [if_neg hw]
  simp only [base32ToBytesUpper]
  rw [hbits]

theorem base32ToBytesUpper_filter_ws (l : List Char) :
    base32ToBytesUpper (l.filter (fun c => !(isWhitespaceJS c))) = base32ToBytesUpper l := by
  simp only [base32ToBytesUpper, List.filter_filter]
  have h : ∀ x ∈ l, ((fun c => !(isWhitespaceJS c)) x && (fun c => !(isWhitespaceJS c)) x) =
      (fun c => !(isWhitespaceJS c)) x := fun x _ => Bool.and_self _
  rw [List.filter_congr h]

/-- C5 counterexample: the input "ß" consists of one character that is not
in the alphabet A-Z2-7, so under the claim it would be silently skipped
and the decoder would return no bytes; but JavaScript uppercases 'ß' to
"SS" before the alphabet scan, and the program returns the single byte
148. The decoder is evaluated with an uppercasing that agrees with
`toUpperCase` at this input. -/
theorem base32ToBytes_sharp_s_not_skipped :
    indexOfChar 'ß' base32Alphabet 0 = none ∧
    upperSharpS (String.mk ['ß']).toList = ['S', 'S'] ∧
    base32ToBytesWith upperSharpS (String.mk ['ß']) = [148] :=
  ⟨by decide, by decide, by decide⟩

/-- C5 amended: with the platform uppercasing abstracted as `upper`, the
decoder is defined for every input string and returns exactly
`floor(5·k/8)` bytes, where `k` counts the characters of the uppercased,
whitespace-stripped input found in the alphabet A-Z2-7; every character of
the uppercased input outside the alphabet is silently skipped; decoding is
unchanged by uppercasing the input first whenever `upper` is idempotent
(Unicode uppercasing is) and unchanged by prior whitespace removal
whenever `upper` commutes with it (Unicode case mappings neither produce
nor consume whitespace). An input character outside the alphabet whose
uppercase lands inside it, such as 'ß', is decoded rather than skipped. -/
theorem base32ToBytesWith_lenient (upper : List Char → List Char) (s : String) :
    (base32ToBytesWith upper s).length = 5 * acceptedCountUpper (upper s.toList) / 8 ∧
    (∀ (c : Char) (l1 l2 : List Char), indexOfChar c base32Alphabet 0 = none →
      upper s.toList = l1 ++ c :: l2 →
      base32ToBytesWith upper s = base32ToBytesUpper (l1 ++ l2)) ∧
    (upper (upper s.toList) = upper s.toList →
      base32ToBytesWith upper (String.mk (upper s.toList)) = base32ToBytesWith upper s) ∧
    (upper ((String.mk (s.toList.filter (fun c => !(isWhitespaceJS c)))).toList) =
        (upper s.toList).filter (fun c => !(isWhitespaceJS c)) →
      base32ToBytesWith upper (String.mk (s.toList.filter (fun c => !(isWhitespaceJS c)))) =
        base32ToBytesWith upper s) := by
  refine ⟨?_, ?_, ?_, ?_⟩
  · simp only [base32ToBytesWith, base32ToBytesUpper, acceptedCountUpper]
    rw [bitsToBytesAux_length _ _ (le_refl _), flatten_map_base32CharBits_length]
  · intro c l1 l2 hc hdec
    simp only [base32ToBytesWith, hdec]
    exact base32ToBytesUpper_skip c hc l1 l2
  · intro h
    simp only [base32ToBytesWith, toList_mk, h]
  · intro h
    simp only [toList_mk] at h
    simp only [base32ToBytesWith, toList_mk, h]
    exact base32ToBytesUpper_filter_ws (upper s.toList)

/-- Witness for the amended C5 at the ASCII uppercasing and the concrete
input "a!" (one lowercase alphabet character, one skipped character). -/
theorem base32ToBytesWith_lenient_witness :
    ((base32ToBytesWith (fun l => l.map upperChar) (String.mk ['a', '!'])).length =
      5 * acceptedCountUpper ((fun l => l.map upperChar)
        (String.mk ['a', '!']).toList) / 8) ∧
    base32ToBytesWith (fun l => l.map upperChar) (String.mk ['a', '!']) =
      base32ToBytesUpper (['A'] ++ []) ∧
    base32ToBytesWith (fun l => l.map upperChar)
        (String.mk ((fun l => l.map upperChar) (String.mk ['a', '!']).toList)) =
      base32ToBytesWith (fun l => l.map upperChar) (String.mk ['a', '!']) ∧
    base32ToBytesWith (fun l => l.map upperChar)
        (String.mk ((String.mk ['a', '!']).toList.filter (fun c => !(isWhitespaceJS c)))) =
      base32ToBytesWith (fun l => l.map upperChar) (String.mk ['a', '!']) :=
  ⟨(base32ToBytesWith_lenient (fun l => l.map upperChar) (String.mk ['a', '!'])).1,
   (base32ToBytesWith_lenient (fun l => l.map upperChar) (String.mk ['a', '!'])).2.1
     '!' ['A'] [] (by decide) (by decide),
   (base32ToBytesWith_lenient (fun l => l.map upperChar) (String.mk ['a', '!'])).2.2.1
     (by decide),
   (base32ToBytesWith_lenient (fun l => l.map upperChar) (String.mk ['a', '!'])).2.2.2
     (by decide)⟩

/-- C1: the RFC 6238 SHA-1 test vectors. With the secret
`GEZDGNBVGY3TQOJQGEZDGNBVGY3TQOJQ`, period 30 and digits 6, `generateCode`
returns `287082` at 59 s, `081804` at 1111111109 s, `005924` at
1234567890 s, and `279037` at 2000000000 s (timestamps in milliseconds). -/
theorem generateCode_rfc6238_vectors :
    generateCode "GEZDGNBVGY3TQOJQGEZDGNBVGY3TQOJQ" 59000 30 6 = "287082" ∧
    generateCode "GEZDGNBVGY3TQOJQGEZDGNBVGY3TQOJQ" 1111111109000 30 6 = "081804" ∧
    generateCode "GEZDGNBVGY3TQOJQGEZDGNBVGY3TQOJQ" 1234567890000 30 6 = "005924" ∧
    generateCode "GEZDGNBVGY3TQOJQGEZDGNBVGY3TQOJQ" 2000000000000 30 6 = "279037" :=
  ⟨by decide, by decide, by decide, by decide⟩

/-- C3: encoding the ASCII bytes of "12345678901234567890" yields the RFC
6238 test secret. -/
theorem bytesToBase32_known_vector :
    bytesToBase32 ("12345678901234567890".toList.map Char.toNat) =
      "GEZDGNBVGY3TQOJQGEZDGNBVGY3TQOJQ" := by decide

/-- C9: `getRemainingSeconds` returns `period - (floor(nowSeconds) mod
period)`, always in `[1, period]` for a positive period. -/
theorem getRemainingSeconds_range (nowMs period : Nat) (hp : 0 < period) :
    getRemainingSeconds nowMs period = period - (nowMs / 1000) % period ∧
    1 ≤ getRemainingSeconds nowMs period ∧
    getRemainingSeconds nowMs period ≤ period := by
  have hm : (nowMs / 1000) % period < period := Nat.mod_lt _ hp
  refine ⟨rfl, ?_, ?_⟩ <;> simp only [getRemainingSeconds] <;> omega

/-- Witness for C9 at `nowMs = 59000`, `period = 30`. -/
theorem getRemainingSeconds_range_witness :
    0 < 30 ∧
    (getRemainingSeconds 59000 30 = 30 - (59000 / 1000) % 30 ∧
     1 ≤ getRemainingSeconds 59000 30 ∧ getRemainingSeconds 59000 30 ≤ 30) :=
  ⟨by decide, getRemainingSeconds_range 59000 30 (by decide)⟩

/-- C10: `generateCode` depends on the timestamp only through the counter
`floor(time / 1000 / period)`: equal counters give equal codes. -/
theorem generateCode_counter_determined (s : String) (t1 t2 p d : Nat)
    (_hp : 0 < p) (_hd : 0 < d) (h : t1 / 1000 / p = t2 / 1000 / p) :
    generateCode s t1 p d = generateCode s t2 p d := by
  simp only [generateCode]
  rw [h]

/-- Witness for C10: 59 s and 45 s fall in the same period-30 window. -/
theorem generateCode_counter_determined_witness :
    0 < 30 ∧ 0 < 6 ∧ 59000 / 1000 / 30 = 45000 / 1000 / 30 ∧
    generateCode "GEZDGNBVGY3TQOJQGEZDGNBVGY3TQOJQ" 59000 30 6 =
      generateCode "GEZDGNBVGY3TQOJQGEZDGNBVGY3TQOJQ" 45000 30 6 :=
  ⟨by decide, by decide, by decide,
   generateCode_counter_determined "GEZDGNBVGY3TQOJQGEZDGNBVGY3TQOJQ" 59000 45000 30 6
     (by decide) (by decide) (by decide)⟩

/-- C7 counterexample: at length 0 — a non-positive length —
`generateSecretBytes` does not fail; `new Uint8Array(0)` succeeds and the
call returns the empty byte sequence. -/
theorem generateSecretBytes_zero_succeeds :
    ¬ ((0 : Int) > 0) ∧ generateSecretBytes 0 (fun _ => 0) = some [] :=
  ⟨by decide, rfl⟩

/-- C7 amended: for every strictly negative length `generateSecretBytes`
fails (for every entropy source, hence before consuming entropy); for
length 0 it returns the empty byte sequence. -/
theorem generateSecretBytes_neg_fails (len : Int) (entropy : Nat → Nat) :
    (len < 0 → generateSecretBytes len entropy = none) ∧
    (len = 0 → generateSecretBytes len entropy = some []) := by
  constructor
  · intro h
    simp [generateSecretBytes, h]
  · intro h
    subst h
    rfl

/-- Witness for the amended C7 at lengths -1 and 0. -/
theorem generateSecretBytes_neg_fails_witness :
    generateSecretBytes (-1) (fun _ => 0) = none ∧
    generateSecretBytes 0 (fun _ => 0) = some [] :=
  ⟨(generateSecretBytes_neg_fails (-1) (fun _ => 0)).1 (by decide),
   (generateSecretBytes_neg_fails 0 (fun _ => 0)).2 rfl⟩

theorem toDecAux_succ (fuel n : Nat) :
    toDecAux (fuel + 1) n =
      if n < 10 then [Char.ofNat (48 + n)]
      else toDecAux fuel (n / 10) ++ [Char.ofNat (48 + n % 10)] := rfl

theorem digitChar_isDigit : ∀ k : Nat, k < 10 → (Char.ofNat (48 + k)).isDigit = true := by
  decide

theorem digitChar_toNat : ∀ k : Nat, k < 10 → (Char.ofNat (48 + k)).toNat = 48 + k := by
  decide

theorem toDecAux_length_le :
    ∀ (fuel n d : Nat), n < fuel → 1 ≤ d → n < 10 ^ d →
      (toDecAux fuel n).length ≤ d := by
  intro fuel
  induction fuel with
  | zero => intro n d h; omega
  | succ fuel ih =>
    intro n d hf hd hn
    rw [toDecAux_succ]
    by_cases h10 : n < 10
    · rw [if_pos h10]
      simpa using hd
    · rw [if_neg h10, List.length_append]
      simp only [List.length_cons, List.length_nil]
      have hd2 : 2 ≤ d := by
        by_contra hlt
        have hd1 : d = 1 := by omega
        subst hd1
        simp only [pow_one] at hn
        omega
      have hdiv : n / 10 < 10 ^ (d - 1) := by
        rw [Nat.div_lt_iff_lt_mul (by norm_num)]
        have hpow : 10 ^ (d - 1) * 10 = 10 ^ d := by
          rw [← Nat.pow_succ]
          congr 1
          omega
        rw [hpow]
        exact hn
      have := ih (n / 10) (d - 1) (by omega) (by omega) hdiv
      omega

theorem toDecAux_all_digits :
    ∀ (fuel n : Nat), ∀ c ∈ toDecAux fuel n, c.isDigit = true := by
  intro fuel
  induction fuel with
  | zero => intro n c hc; simp [toDecAux] at hc
  | succ fuel ih =>
    intro n c hc
    rw [toDecAux_succ] at hc
    by_cases h10 : n < 10
    · rw [if_pos h10] at hc
      simp only [List.mem_singleton] at hc
      subst hc
      exact digitChar_isDigit n h10
    · rw [if_neg h10] at hc
      rcases List.mem_append.mp hc with hc | hc
      · exact ih (n / 10) c hc
      · simp only [List.mem_singleton] at hc
        subst hc
        exact digitChar_isDigit (n % 10) (by omega)

theorem decValue_append_digit (cs : List Char) (c : Char) :
    decValue (cs ++ [c]) = 10 * decValue cs + (c.toNat - 48) := by
  simp [decValue, List.foldl_append]

theorem decValue_toDecAux :
    ∀ (fuel n : Nat), n < fuel → decValue (toDecAux fuel n) = n := by
  intro fuel
  induction fuel with
  | zero => intro n h; omega
  | succ fuel ih =>
    intro n h
    rw [toDecAux_succ]
    by_cases h10 : n < 10
    · rw [if_pos h10]
      have ht : (Char.ofNat (48 + n)).toNat = 48 + n := digitChar_toNat n h10
      simp [decValue, ht]
    · rw [if_neg h10, decValue_append_digit, ih (n / 10) (by omega),
        digitChar_toNat (n % 10) (by omega)]
      omega

theorem decValue_cons_zero (l : List Char) : decValue ('0' :: l) = decValue l := rfl

theorem decValue_replicate_zero (k : Nat) (cs : List Char) :
    decValue (List.replicate k '0' ++ cs) = decValue cs := by
  induction k with
  | zero => rfl
  | succ k ih => rw [List.replicate_succ, List.cons_append, decValue_cons_zero, ih]

theorem length_mk (cs : List Char) : (String.mk cs).length = cs.length := rfl

/-- C4: for a positive period and positive digit count, the code returned
by `generateCode` is all decimal digits, exactly `digits` characters long,
and denotes `truncatedValue mod 10^digits` (zero-padding preserves the
value). -/
theorem generateCode_format (secret : String) (time period digits : Nat)
    (_hp : 0 < period) (hd : 0 < digits) :
    (generateCode secret time period digits).length = digits ∧
    (∀ c ∈ (generateCode secret time period digits).toList, c.isDigit = true) ∧
    decValue (generateCode secret time period digits).toList =
      dynamicTruncate (hmacSha1 (base32ToBytes secret)
        (counterBytes (time / 1000 / period))) % 10 ^ digits := by
  have hgen : generateCode secret time period digits =
      String.mk (padStartList (natToDec (dynamicTruncate (hmacSha1 (base32ToBytes secret)
        (counterBytes (time / 1000 / period))) % 10 ^ digits)) digits '0') := rfl
  have hotp : dynamicTruncate (hmacSha1 (base32ToBytes secret)
      (counterBytes (time / 1000 / period))) % 10 ^ digits < 10 ^ digits :=
    Nat.mod_lt _ (Nat.pos_pow_of_pos digits (by norm_num))
  have hlen : (natToDec (dynamicTruncate (hmacSha1 (base32ToBytes secret)
      (counterBytes (time / 1000 / period))) % 10 ^ digits)).length ≤ digits :=
    toDecAux_length_le _ _ digits (Nat.lt_succ_self _) hd hotp
  refine ⟨?_, ?_, ?_⟩
  · rw [hgen, length_mk, padStartList, List.length_append, List.length_replicate]
    omega
  · intro c hc
    rw [hgen, toList_mk, padStartList] at hc
    rcases List.mem_append.mp hc with hc | hc
    · rw [List.eq_of_mem_replicate hc]
      decide
    · exact toDecAux_all_digits _ _ c hc
  · rw [hgen, toList_mk, padStartList, decValue_replicate_zero, natToDec,
      decValue_toDecAux _ _ (Nat.lt_succ_self _)]

/-- Witness for C4 at the first RFC 6238 vector's inputs. -/
theorem generateCode_format_witness :
    0 < 30 ∧ 0 < 6 ∧
    ((generateCode "GEZDGNBVGY3TQOJQGEZDGNBVGY3TQOJQ" 59000 30 6).length = 6 ∧
     (∀ c ∈ (generateCode "GEZDGNBVGY3TQOJQGEZDGNBVGY3TQOJQ" 59000 30 6).toList,
        c.isDigit = true) ∧
     decValue (generateCode "GEZDGNBVGY3TQOJQGEZDGNBVGY3TQOJQ" 59000 30 6).toList =
       dynamicTruncate (hmacSha1 (base32ToBytes "GEZDGNBVGY3TQOJQGEZDGNBVGY3TQOJQ")
         (counterBytes (59000 / 1000 / 30))) % 10 ^ 6) :=
  ⟨by decide, by decide,
   generateCode_format "GEZDGNBVGY3TQOJQGEZDGNBVGY3TQOJQ" 59000 30 6 (by decide) (by decide)⟩

theorem padded_bits_dvd (bytes : List Nat) :
    5 ∣ ((bytes.map (natToBits 8)).flatten ++
      List.replicate ((5 - ((bytes.map (natToBits 8)).flatten).length % 5) % 5)
        false).length := by
  simp only [List.length_append, List.length_replicate]
  omega

theorem bytesToBase32_length_eq (bytes : List Nat) :
    (bytesToBase32 bytes).length =
      (8 * bytes.length + (5 - (8 * bytes.length) % 5) % 5) / 5 := by
  have hlen := flatten_map_natToBits_length 8 bytes
  have henc : bytesToBase32 bytes = String.mk ((chunks 5 ((bytes.map (natToBits 8)).flatten ++
      List.replicate ((5 - ((bytes.map (natToBits 8)).flatten).length % 5) % 5) false)).map
      (fun ch => base32Alphabet.getD (bitsToNat ch) 'A')) := rfl
  rw [henc, length_mk, List.length_map, chunks,
    chunksAux_length_dvd 5 (by norm_num) _ _ (le_refl _) (padded_bits_dvd bytes)]
  simp only [List.length_append, List.length_replicate, hlen]

theorem bytesToBase32_chars (bytes : List Nat) :
    ∀ c ∈ (bytesToBase32 bytes).toList, c ∈ base32Alphabet := by
  intro c hc
  have henc : bytesToBase32 bytes = String.mk ((chunks 5 ((bytes.map (natToBits 8)).flatten ++
      List.replicate ((5 - ((bytes.map (natToBits 8)).flatten).length % 5) % 5) false)).map
      (fun ch => base32Alphabet.getD (bitsToNat ch) 'A')) := rfl
  rw [henc, toList_mk] at hc
  rcases List.mem_map.mp hc with ⟨ch, hch, rfl⟩
  have hchlen : ch.length = 5 :=
    chunksAux_mem_length 5 (by norm_num) _ _ (le_refl _) (padded_bits_dvd bytes) ch hch
  have hv : bitsToNat ch < base32Alphabet.length := by
    have h1 := bitsToNat_lt ch
    rw [hchlen] at h1
    exact h1
  rw [List.getD_eq_getElem _ _ hv]
  exact List.getElem_mem hv

/-- C6: `generateSecret` always returns a 32-character string over the
alphabet `A–Z2–7`; more generally `bytesToBase32` maps every 20-byte input
to exactly 32 unpadded alphabet characters. -/
theorem generateSecret_format :
    (∀ entropy : Nat → Nat, (generateSecret entropy).length = 32 ∧
      ∀ c ∈ (generateSecret entropy).toList, c ∈ base32Alphabet) ∧
    (∀ bytes : List Nat, bytes.length = 20 →
      (bytesToBase32 bytes).length = 32 ∧
      ∀ c ∈ (bytesToBase32 bytes).toList, c ∈ base32Alphabet) := by
  have hgen : ∀ bytes : List Nat, bytes.length = 20 →
      (bytesToBase32 bytes).length = 32 ∧
      ∀ c ∈ (bytesToBase32 bytes).toList, c ∈ base32Alphabet := by
    intro bytes h20
    refine ⟨?_, bytesToBase32_chars bytes⟩
    rw [bytesToBase32_length_eq, h20]
  constructor
  · intro entropy
    have h : generateSecretBytes 20 entropy =
        some ((List.range (20 : Int).toNat).map (fun i => entropy i % 256)) := by
      rw [generateSecretBytes, if_neg (by decide)]
    have h20 : ((generateSecretBytes 20 entropy).getD []).length = 20 := by
      rw [h]
      simp
    exact hgen _ h20
  · exact hgen

/-- Witness for C6 at a concrete entropy source and a concrete 20-byte
input. -/
theorem generateSecret_format_witness :
    ((generateSecret (fun i => i)).length = 32 ∧
      ∀ c ∈ (generateSecret (fun i => i)).toList, c ∈ base32Alphabet) ∧
    ((bytesToBase32 (List.replicate 20 7)).length = 32 ∧
      ∀ c ∈ (bytesToBase32 (List.replicate 20 7)).toList, c ∈ base32Alphabet) :=
  ⟨generateSecret_format.1 (fun i => i),
   generateSecret_format.2 (List.replicate 20 7) (by decide)⟩

/-- C8: `buildURI` produces `otpauth://totp/<label>?<query>` where the
label is the percent-encoded issuer, `:`, and the percent-encoded account
when the issuer is non-empty (just the encoded account otherwise), and the
query carries the parameters `secret`, `issuer`, `algorithm`, `digits` and
`period` in order. -/
theorem buildURI_format (p : URIParams) :
    buildURI p = "otpauth://totp/" ++
      (if p.issuer = "" then encodeURIComponent p.account
       else encodeURIComponent p.issuer ++ ":" ++ encodeURIComponent p.account) ++
      "?secret=" ++ formEncode p.secret ++
      "&issuer=" ++ formEncode p.issuer ++
      "&algorithm=" ++ formEncode p.algorithm ++
      "&digits=" ++ formEncode (String.mk (natToDec p.digits)) ++
      "&period=" ++ formEncode (String.mk (natToDec p.period)) := by
  have h1 : formEncode "secret" = "secret" := rfl
  have h2 : formEncode "issuer" = "issuer" := rfl
  have h3 : formEncode "algorithm" = "algorithm" := rfl
  have h4 : formEncode "digits" = "digits" := rfl
  have h5 : formEncode "period" = "period" := rfl
  simp only [buildURI, serializeParams, h1, h2, h3, h4, h5]
  by_cases hiss : p.issuer = ""
  · simp only [if_pos hiss, hiss]
    apply String.ext
    simp [String.data_append, List.append_assoc]
  · simp only [if_neg hiss]
    apply String.ext
    simp [String.data_append, List.append_assoc]

end TOTP

